import Mathlib

/-!
# Verification of typescene's `UIListController` and `UIMenu`

Shallow embedding of `src/unnamed/part_000` (the `UIListController` list
reconciliation, focus tracking and arrow-key navigation) and
`src/src/ui/UIRenderableController.ts` (the `UIMenu` build/selection logic),
with proofs of the specification's testable properties.

Domain objects are represented by their `managedId : Nat`; view-component
instances are represented by `Nat` tokens allocated from a monotone counter,
so "same instance" is equality of tokens and `new Adapter(item)` yields a
fresh token.
-/

namespace Typescene

/-! ## Association-list model of `ManagedMap` (`contentMap`) and its snapshot

`created = map.toObject()` is a key→value snapshot; `map.set`, `map.remove`
and `delete created[key]` are embedded below.  Keys are the `managedId`s of
domain objects, values are view-component tokens. -/

/-- Lookup in a key→component association list (`map[key]` / `created[key]`):
the value of the first entry with the given key. -/
def mlookup : List (Nat × Nat) → Nat → Option Nat
  | [], _ => none
  | p :: t, k => if p.1 = k then some p.2 else mlookup t k

/-- `ManagedMap.set(key, value)`: replace the value at an existing key, or add
a new entry. -/
def mapSet (m : List (Nat × Nat)) (k v : Nat) : List (Nat × Nat) :=
  if (mlookup m k).isSome then
    m.map (fun p => if p.1 = k then (k, v) else p)
  else
    m ++ [(k, v)]

/-- `delete created[key]`: drop the entry for a key from the snapshot object. -/
def mapDelete (m : List (Nat × Nat)) (k : Nat) : List (Nat × Nat) :=
  m.filter (fun p => p.1 ≠ k)

/-- `for (let oldKey in created) map.remove(created[oldKey])`: remove from the
map every entry whose *value* (component) is a value remaining in `created`. -/
def removeCreated (m created : List (Nat × Nat)) : List (Nat × Nat) :=
  created.foldl (fun acc p => acc.filter (fun q => q.2 ≠ p.2)) m

/-! ## `ManagedList` collaborator operations

Modelled from the spec: the domain-object collection is core-runtime code not
under `src/`; spec §6 requires "stable per-element identity, ordered
iteration, a count, element-by-index access, and a bounded take-N-starting-at-
position operation". -/

/-- Modelled from the spec: `ManagedList.get(index)` — element-by-index
access, an error when the index is out of range. -/
def listGet (l : List Nat) (i : Int) : Except String Nat :=
  if h : 0 ≤ i ∧ i.toNat < l.length then .ok (l.get ⟨i.toNat, h.2⟩)
  else .error "ManagedList.get: index out of range"

/-- Modelled from the spec: `ManagedList.take(n, startingFrom)` — up to `n`
objects counting from the position of `startingFrom` in the list. -/
def listTake (l : List Nat) (n : Int) (startObj : Nat) : List Nat :=
  (l.dropWhile (fun x => x ≠ startObj)).take n.toNat

/-! ## The reconciliation (`onItemsChangeAsync`, part_000 lines 62–105) -/

/-- The observed inputs of one reconciliation pass: the controller's
`content`/`content.content` presence, `items`, the configured adapter, and
the window parameters `firstIndex` / `maxItems`. -/
structure ListEnv where
  hasContent : Bool
  items : Option (List Nat)
  hasAdapter : Bool
  firstIndex : Int
  maxItems : Option Int
  deriving Repr, DecidableEq

/-- The mutable state the reconciliation reads and writes: the identity→
component `contentMap`, the rendered container's child sequence, and the
allocation counter for fresh component instances. -/
structure ListState where
  contentMap : List (Nat × Nat)
  container : List Nat
  nextComp : Nat
  deriving Repr, DecidableEq

/-- Lines 74–82: compute the visible items.  The local `firstIndex` is clamped
to `0` via `if (!(firstIndex >= 0)) firstIndex = 0`, but the later
`list.get(this.controller.firstIndex)` re-reads the *unclamped* field. -/
def computeItems (firstIndexArg : Int) (maxItems : Option Int) (list : List Nat) :
    Except String (List Nat) :=
  let firstIndex : Int := if firstIndexArg ≥ 0 then firstIndexArg else 0
  let maxNonneg : Bool := match maxItems with | some m => decide (m ≥ 0) | none => false
  if firstIndex > 0 ∨ maxNonneg then
    if list.length > 0 ∧ firstIndex < (list.length : Int) then
      match listGet list firstIndexArg with
      | .error e => .error e
      | .ok startObj =>
          .ok (listTake list
            (match maxItems with
             | some m => if m ≥ 0 then m else (list.length : Int)
             | none => (list.length : Int)) startObj)
    else .ok []
  else .ok list

/-- The result of the `for (let item of items)` loop (lines 85–98). -/
structure LoopRes where
  map : List (Nat × Nat)
  created : List (Nat × Nat)
  comps : List Nat
  next : Nat
  deriving Repr, DecidableEq

/-- Lines 88–98: for each visible item, reuse the component found in the
`created` snapshot (and mark it still wanted by deleting it from `created`),
or construct a fresh component via the adapter and record it in the map. -/
def reconcileLoop : List Nat → List (Nat × Nat) → List (Nat × Nat) → List Nat → Nat → LoopRes
  | [], map, created, comps, next => ⟨map, created, comps, next⟩
  | item :: rest, map, created, comps, next =>
    match mlookup created item with
    | none => reconcileLoop rest (mapSet map item next) created (comps ++ [next]) (next + 1)
    | some c => reconcileLoop rest map (mapDelete created item) (comps ++ [c]) next

/-- `onItemsChangeAsync` (lines 62–105): the full reconciliation pass.
Returns `.error` only if a collaborator call (`ManagedList.get`) throws. -/
def onItemsChangeAsync (env : ListEnv) (st : ListState) : Except String ListState :=
  if !env.hasContent then .ok st
  else
    match env.items, env.hasAdapter with
    | none, _ => .ok { st with container := [] }
    | some _, false => .ok { st with container := [] }
    | some list, true =>
      match computeItems env.firstIndex env.maxItems list with
      | .error e => .error e
      | .ok items =>
        let r := reconcileLoop items st.contentMap st.contentMap [] st.nextComp
        .ok { contentMap := removeCreated r.map r.created
              container := r.comps
              nextComp := r.next }

/-- The spec's windowing rule (§3): `collection[firstIndex .. firstIndex+maxItems)`
clipped to collection bounds; `maxItems` unset means unbounded. -/
def specWindow (l : List Nat) (firstIndex : Int) (maxItems : Option Int) : List Nat :=
  (l.drop firstIndex.toNat).take
    (match maxItems with | some m => m.toNat | none => l.length)

/-- Well-formedness of the reconciliation state: distinct map keys (at most
one component per identity), distinct component values (at most one identity
per live component), and all allocated components below the counter. -/
structure WFState (st : ListState) : Prop where
  keysNodup : (st.contentMap.map (fun p => p.1)).Nodup
  valsNodup : (st.contentMap.map (fun p => p.2)).Nodup
  valsLt : ∀ p ∈ st.contentMap, p.2 < st.nextComp

/-- Invariant carried through `reconcileLoop`: the remaining items are
distinct, `created` is a sub-map of `map` agreeing with it on the
still-unprocessed keys, and the map is well-formed for the allocator `next`.
At the top of the loop it holds because `created` is a snapshot of `map`. -/
structure LoopInv (items : List Nat) (map created : List (Nat × Nat)) (next : Nat) : Prop where
  nodupItems : items.Nodup
  sub : ∀ k v, mlookup created k = some v → mlookup map k = some v
  freshNone : ∀ k, k ∈ items → mlookup created k = none → mlookup map k = none
  keysNodup : (map.map (fun p => p.1)).Nodup
  valsNodup : (map.map (fun p => p.2)).Nodup
  valsLt : ∀ p ∈ map, p.2 < next

/-! ## Focus tracking (part_000 lines 30–59 and 133–154)

Components are `Nat` ids; `getParentComponent` is a partial parent map.  The
controller's `content` (the container) is `some (containerId, children)` when
set; each child records whether it has a callable `requestFocus` method. -/

/-- A direct child of the container: its component id and whether
`typeof child.requestFocus === "function"`. -/
structure ChildInfo where
  id : Nat
  hasRequestFocus : Bool
  deriving Repr, DecidableEq

/-- The component-tree collaborators the focus handlers consult:
`getParentComponent`, `instanceof UIComponent`, and the controller's
`content` container with its child list. -/
structure TreeEnv where
  parent : Nat → Option Nat
  isUI : Nat → Bool
  container : Option (Nat × List ChildInfo)

/-- JavaScript `Array.prototype.indexOf`-style index of a component among the
container's children: the index, or `-1` when absent. -/
def indexOfChild (children : List ChildInfo) (c : Nat) : Int :=
  match children.findIdx? (fun ch => ch.id = c) with
  | some i => (i : Int)
  | none => -1

/-- The `while (component && component.getParentComponent() !== container)`
walk of `getIndexOfComponent` (lines 136–138), with explicit fuel; `none`
means the fuel ran out before the loop exited (a nontermination artifact that
never occurs on well-founded parent chains). -/
def getIndexLoop (parentF : Nat → Option Nat) (containerId : Nat) :
    Nat → Option Nat → Option (Option Nat)
  | 0, comp =>
    match comp with
    | none => some none
    | some c => if parentF c = some containerId then some (some c) else none
  | fuel + 1, comp =>
    match comp with
    | none => some none
    | some c =>
      if parentF c = some containerId then some (some c)
      else getIndexLoop parentF containerId fuel (parentF c)

/-- `getIndexOfComponent` (lines 133–141): walk up to the direct child of the
container and return its index in the rendered sequence, `-1` otherwise. -/
def getIndexOfComponent (env : TreeEnv) (fuel : Nat) (component : Option Nat) :
    Option Int :=
  match env.container with
  | none => some (-1)
  | some (containerId, children) =>
    match getIndexLoop env.parent containerId fuel component with
    | none => none
    | some none => some (-1)
    | some (some c) => some (indexOfChild children c)

/-- `restoreFocus` (lines 144–154): clamp `lastFocusedIndex` into the child
range and request focus on that child when it supports the focus protocol.
The result is the id of the child focus was requested on, if any; `.error`
would mean a collaborator access threw.  (The stray `window.__list`
assignment on line 151 is ambient debug instrumentation with no effect on
this state and is not modelled.) -/
def restoreFocus (container : Option (Nat × List ChildInfo)) (lastFocusedIndex : Int) :
    Except String (Option Nat) :=
  match container with
  | none => .ok none
  | some (_, children) =>
    if children.length > 0 then
      let index : Int := min ((children.length : Int) - 1) (max lastFocusedIndex 0)
      if h : 0 ≤ index ∧ index.toNat < children.length then
        let goFocus := children.get ⟨index.toNat, h.2⟩
        .ok (if goFocus.hasRequestFocus then some goFocus.id else none)
      else .error "ManagedList.get: index out of range"
    else .ok none

/-- The observable outcome of `onFocusIn`: the updated `lastFocusedIndex` and,
when focus restoration was triggered instead, its result. -/
structure FocusOutcome where
  lastFocusedIndex : Int
  restored : Option (Except String (Option Nat))
  deriving Repr

/-- `onFocusIn` (lines 30–39): a focus-gained notification from `e.source`
either records `Math.max(0, getIndexOfComponent(e.source))` or, when the
source *is* the container, triggers `restoreFocus`.  `none` = fuel artifact. -/
def onFocusIn (env : TreeEnv) (lastFocusedIndex : Int) (source : Nat) (fuel : Nat) :
    Option FocusOutcome :=
  if (match env.container with
      | some (cid, _) => decide (source ≠ cid)
      | none => true) then
    (getIndexOfComponent env fuel (some source)).map
      (fun idx => ⟨max 0 idx, none⟩)
  else
    some ⟨lastFocusedIndex, some (restoreFocus env.container lastFocusedIndex)⟩

/-! ## Arrow-key navigation (part_000 lines 40–59) -/

/-- The `while (source && source !== this.controller.content)` walk of
`_getListItemComponent` (lines 52–59): remember the last `UIComponent` seen,
step to the parent.  `contentId` is the controller's `content` (if set);
`none` result = fuel artifact. -/
def listItemLoop (parentF : Nat → Option Nat) (isUI : Nat → Bool)
    (contentId : Option Nat) :
    Nat → Option Nat → Option Nat → Option (Option Nat)
  | 0, src, tgt =>
    match src with
    | none => some tgt
    | some c => if contentId = some c then some tgt else none
  | fuel + 1, src, tgt =>
    match src with
    | none => some tgt
    | some c =>
      if contentId = some c then some tgt
      else listItemLoop parentF isUI contentId fuel (parentF c)
        (if isUI c then some c else tgt)

/-- `_getListItemComponent(e.source)` as called by the key handlers. -/
def getListItemComponent (env : TreeEnv) (source : Nat) (fuel : Nat) :
    Option (Option Nat) :=
  listItemLoop env.parent env.isUI (env.container.map (fun p => p.1)) fuel
    (some source) none

/-- `onArrowUpKeyPress` (lines 40–45): when arrow-key focus is enabled,
resolve the list-item component and call `requestFocusPrevious` on it.  The
inner option is the id `requestFocusPrevious` was invoked on (`none` = the
handler did nothing); the outer `none` = fuel artifact. -/
def onArrowUpKeyPress (env : TreeEnv) (enableArrowKeyFocus : Bool) (source : Nat)
    (fuel : Nat) : Option (Option Nat) :=
  if enableArrowKeyFocus then getListItemComponent env source fuel
  else some none

/-- `onArrowDownKeyPress` (lines 46–51): same resolution, then
`requestFocusNext` on the target. -/
def onArrowDownKeyPress (env : TreeEnv) (enableArrowKeyFocus : Bool) (source : Nat)
    (fuel : Nat) : Option (Option Nat) :=
  if enableArrowKeyFocus then getListItemComponent env source fuel
  else some none

/-! ### Spec-side descriptions of the parent-chain walks -/

/-- The ancestor chain of a component: the component, its parent, its
grandparent, …, cut off by the fuel. -/
def ancestorsAux (parentF : Nat → Option Nat) : Nat → Nat → List Nat
  | 0, c => [c]
  | fuel + 1, c =>
    c :: (match parentF c with
          | none => []
          | some p => ancestorsAux parentF fuel p)

/-- Spec §4.1: "the direct child of the container that is an ancestor of (or
equal to) the focused component" — the first element of the ancestor chain
whose parent is the container. -/
def firstDirectChild (parentF : Nat → Option Nat) (containerId : Nat) :
    List Nat → Option Nat
  | [] => none
  | c :: rest =>
    if parentF c = some containerId then some c
    else firstDirectChild parentF containerId rest

/-- The portion of the ancestor chain the `_getListItemComponent` walk visits:
everything strictly before the container. -/
def chainBeforeContainer (contentId : Option Nat) (chain : List Nat) : List Nat :=
  chain.takeWhile (fun c => !(contentId == some c))

/-- The target `_getListItemComponent` computes, described from the chain: the
last `UIComponent` among the visited ancestors. -/
def specListItemTarget (isUI : Nat → Bool) (contentId : Option Nat)
    (chain : List Nat) : Option Nat :=
  ((chainBeforeContainer contentId chain).filter (fun c => isUI c)).getLast?

/-- Whether the source is a descendant of (or equal to) the container,
judged on its (fuel-bounded) ancestor chain. -/
def isDescendantOf (parentF : Nat → Option Nat) (containerId : Nat)
    (chain : List Nat) : Bool :=
  chain.any (fun c => c = containerId || parentF c == some containerId)

/-! ## `UIMenu` (src/src/ui/UIRenderableController.ts lines 59–121)

The platform `UIMenuBuilder` is theme code not under `src/`; its contract is
modelled from spec §6: `clear()`, `addOption(key, text)`, `setGravity(value)`,
`build()` → constructor for a renderable menu instance reflecting the
builder's accumulated state. -/

/-- Modelled from the spec: the builder's accumulated state — the option list
and the gravity it was last given. -/
structure BuilderState where
  options : List (String × String)
  gravity : Option String
  deriving Repr, DecidableEq

/-- Modelled from the spec: `builder.clear()` empties the accumulated state. -/
def builderClear (_ : BuilderState) : BuilderState :=
  ⟨[], none⟩

/-- Modelled from the spec: `builder.addOption(key, text)` appends one option. -/
def builderAddOption (b : BuilderState) (key text : String) : BuilderState :=
  { b with options := b.options ++ [(key, text)] }

/-- Modelled from the spec: `builder.setGravity(value)`. -/
def builderSetGravity (b : BuilderState) (g : String) : BuilderState :=
  { b with gravity := some g }

/-- One observable action of a `UIMenu.render()` call, in program order:
builder calls, the "Build" component event, the `new Menu()` construction and
the `menu.render(callback)` call on the built instance. -/
inductive MenuAct where
  | clear : MenuAct
  | addOption (key text : String) : MenuAct
  | setGravity (g : String) : MenuAct
  | buildEvent : MenuAct
  | build : MenuAct
  | construct (inst : Nat) : MenuAct
  | renderInst (inst : Nat) : MenuAct
  deriving Repr, DecidableEq

/-- The `UIMenu` component's state: its persistent `builder`, the configured
`options` and `gravity` fields, the owned `menu` child (the id of the last
built instance), the builder state each built instance reflects, the
instance-allocation counter, and the `selected` key. -/
structure MenuState where
  builder : BuilderState
  options : List (String × String)
  gravity : Option String
  menu : Option Nat
  lastBuilt : Option BuilderState
  nextInstance : Nat
  selected : Option String
  deriving Repr, DecidableEq

/-- `UIMenu.render` (lines 96–107): populate the builder from `options` when
non-empty, apply `gravity` when set, emit "Build", `build()` once, construct
one instance of the result, assign it to `menu` and render it.  Returns the
new state and the call's action trace. -/
def menuRender (st : MenuState) : MenuState × List MenuAct :=
  let (b1, acts1) :=
    if st.options.length ≠ 0 then
      (st.options.foldl (fun b o => builderAddOption b o.1 o.2) (builderClear st.builder),
       MenuAct.clear :: st.options.map (fun o => MenuAct.addOption o.1 o.2))
    else (st.builder, [])
  let (b2, acts2) :=
    match st.gravity with
    | some g => (builderSetGravity b1 g, acts1 ++ [MenuAct.setGravity g])
    | none => (b1, acts1)
  let acts3 := acts2 ++ [MenuAct.buildEvent, MenuAct.build]
  let inst := st.nextInstance
  ({ st with builder := b2
             menu := some inst
             lastBuilt := some b2
             nextInstance := inst + 1 },
   acts3 ++ [MenuAct.construct inst, MenuAct.renderInst inst])

/-- A child event as seen by the `propagateChildEvents` callback (lines
82–89): `UIMenuItemSelectedEvent extends UIComponentEvent`, whose constructor
stores the selected `key`; other `UIComponentEvent`s; and events of neither
class. -/
inductive ChildEvent where
  | menuItemSelected (name : String) (source : Nat) (key : String) : ChildEvent
  | uiComponent (name : String) (source : Nat) : ChildEvent
  | other (name : String) : ChildEvent
  deriving Repr, DecidableEq

/-- The `propagateChildEvents` callback of the `UIMenu` constructor: record
the key of a menu-item-selected event on `selected`, and return (= re-emit)
any `UIComponentEvent` unchanged; other events are not propagated. -/
def menuChildEventHandler (st : MenuState) (e : ChildEvent) :
    MenuState × Option ChildEvent :=
  match e with
  | .menuItemSelected _ _ k => ({ st with selected := some k }, some e)
  | .uiComponent _ _ => (st, some e)
  | .other _ => (st, none)

/-! ## Concrete instances used to exercise the theorems -/

/-- A sample component tree: the container is component `0` with children
`1` and `2`; component `5` sits inside child `1`; everything except the
container is a `UIComponent`. -/
def sampleTreeEnv : TreeEnv where
  parent := fun n => if n = 5 then some 1 else if n = 1 || n = 2 then some 0 else none
  isUI := fun n => n ≠ 0
  container := some (0, [⟨1, true⟩, ⟨2, true⟩])

/-- A component tree in which component `7` is a root `UIComponent` that is
not a descendant of the container `0`. -/
def arrowCexEnv : TreeEnv where
  parent := fun n => if n = 1 || n = 2 then some 0 else none
  isUI := fun _ => true
  container := some (0, [⟨1, true⟩, ⟨2, true⟩])

/-- A menu about to render two options with gravity set. -/
def menuWitnessState : MenuState where
  builder := ⟨[], none⟩
  options := [("k1", "One"), ("k2", "Two")]
  gravity := some "start"
  menu := none
  lastBuilt := none
  nextInstance := 0
  selected := none

/-- A menu with an empty `options` list but options already accumulated in
its builder. -/
def menuEmptyWitnessState : MenuState where
  builder := ⟨[("a", "A")], none⟩
  options := []
  gravity := none
  menu := none
  lastBuilt := none
  nextInstance := 3
  selected := none

/-! ## Lemmas about the association-list primitives -/

theorem mlookup_eq_none_iff (m : List (Nat × Nat)) (k : Nat) :
    mlookup m k = none ↔ ∀ p ∈ m, p.1 ≠ k := by
  induction m with
  | nil => simp [mlookup]
  | cons q t ih =>
    by_cases hq : q.1 = k <;> simp [mlookup, hq, ih]

theorem mem_of_mlookup {m : List (Nat × Nat)} {k v : Nat}
    (h : mlookup m k = some v) : (k, v) ∈ m := by
  induction m with
  | nil => simp [mlookup] at h
  | cons q t ih =>
    by_cases hq : q.1 = k
    · simp only [mlookup, if_pos hq, Option.some.injEq] at h
      have hqv : q = (k, v) := by
        obtain ⟨q1, q2⟩ := q
        simp only at hq h
        simp [hq, h]
      rw [hqv]
      exact List.mem_cons_self _ _
    · simp only [mlookup, if_neg hq] at h
      exact List.mem_cons_of_mem _ (ih h)

theorem mlookup_isSome_of_mem {m : List (Nat × Nat)} {k v : Nat}
    (h : (k, v) ∈ m) : (mlookup m k).isSome := by
  cases hl : mlookup m k with
  | none => exact absurd rfl ((mlookup_eq_none_iff m k).mp hl (k, v) h)
  | some w => rfl

theorem mlookup_of_mem_keysNodup {m : List (Nat × Nat)} {k v : Nat}
    (hnd : (m.map (fun p => p.1)).Nodup) (h : (k, v) ∈ m) :
    mlookup m k = some v := by
  induction m with
  | nil => simp at h
  | cons q t ih =>
    rw [List.map_cons, List.nodup_cons] at hnd
    rcases List.mem_cons.mp h with h' | h'
    · rw [← h']
      simp [mlookup]
    · have hq : q.1 ≠ k := by
        intro hk
        exact hnd.1 (hk ▸ List.mem_map.mpr ⟨(k, v), h', rfl⟩)
      simp only [mlookup, if_neg hq]
      exact ih hnd.2 h'

theorem eq_of_valsNodup {m : List (Nat × Nat)}
    (hnd : (m.map (fun p => p.2)).Nodup) {p q : Nat × Nat}
    (hp : p ∈ m) (hq : q ∈ m) (hv : p.2 = q.2) : p = q := by
  induction m with
  | nil => simp at hp
  | cons r t ih =>
    rw [List.map_cons, List.nodup_cons] at hnd
    rcases List.mem_cons.mp hp with hp' | hp' <;>
      rcases List.mem_cons.mp hq with hq' | hq'
    · rw [hp', hq']
    · exact absurd (List.mem_map.mpr ⟨q, hq', (hp' ▸ hv).symm⟩) hnd.1
    · exact absurd (List.mem_map.mpr ⟨p, hp', hq' ▸ hv⟩) hnd.1
    · exact ih hnd.2 hp' hq'

theorem mlookup_append_none {m₁ m₂ : List (Nat × Nat)} {k : Nat}
    (h : mlookup m₁ k = none) :
    mlookup (m₁ ++ m₂) k = mlookup m₂ k := by
  induction m₁ with
  | nil => rfl
  | cons q t ih =>
    by_cases hq : q.1 = k
    · simp [mlookup, hq] at h
    · simp only [mlookup, if_neg hq] at h
      simpa [mlookup, hq] using ih h

theorem mlookup_append_some {m₁ m₂ : List (Nat × Nat)} {k v : Nat}
    (h : mlookup m₁ k = some v) :
    mlookup (m₁ ++ m₂) k = some v := by
  induction m₁ with
  | nil => simp [mlookup] at h
  | cons q t ih =>
    by_cases hq : q.1 = k
    · simp only [mlookup, if_pos hq] at h
      simpa [mlookup, hq] using h
    · simp only [mlookup, if_neg hq] at h
      simpa [mlookup, hq] using ih h

theorem mlookup_mapSet_self (m : List (Nat × Nat)) (k v : Nat) :
    mlookup (mapSet m k v) k = some v := by
  unfold mapSet
  split
  · rename_i h
    induction m with
    | nil => simp [mlookup] at h
    | cons q t ih =>
      by_cases hq : q.1 = k
      · simp [mlookup, hq]
      · have h' : (mlookup t k).isSome := by simpa [mlookup, hq] using h
        simpa [mlookup, hq] using ih h'
  · rename_i h
    have hn : mlookup m k = none := by
      cases hl : mlookup m k with
      | none => rfl
      | some w => rw [hl] at h; simp at h
    rw [mlookup_append_none hn]
    simp [mlookup]

theorem mlookup_mapSet_ne (m : List (Nat × Nat)) (k v k' : Nat) (h : k' ≠ k) :
    mlookup (mapSet m k v) k' = mlookup m k' := by
  unfold mapSet
  split
  · rename_i hs
    clear hs
    induction m with
    | nil => rfl
    | cons q t ih =>
      by_cases hq : q.1 = k
      · have hq' : ¬ q.1 = k' := by rw [hq]; exact Ne.symm h
        rw [List.map_cons, if_pos hq]
        simp only [mlookup, if_neg (Ne.symm h), if_neg hq']
        exact ih
      · rw [List.map_cons, if_neg hq]
        by_cases hq' : q.1 = k'
        · simp only [mlookup, if_pos hq']
        · simp only [mlookup, if_neg hq']
          exact ih
  · cases hl : mlookup m k' with
    | none =>
      rw [mlookup_append_none hl]
      simp [mlookup, Ne.symm h]
    | some w => rw [mlookup_append_some hl]

theorem mlookup_mapDelete_self (m : List (Nat × Nat)) (k : Nat) :
    mlookup (mapDelete m k) k = none := by
  rw [mlookup_eq_none_iff]
  intro p hp
  simpa using List.of_mem_filter hp

theorem mlookup_mapDelete_ne (m : List (Nat × Nat)) (k k' : Nat) (h : k' ≠ k) :
    mlookup (mapDelete m k) k' = mlookup m k' := by
  unfold mapDelete
  induction m with
  | nil => rfl
  | cons q t ih =>
    by_cases hq : q.1 = k
    · have hq' : ¬ q.1 = k' := by rw [hq]; exact Ne.symm h
      rw [List.filter_cons_of_neg (by simp [hq])]
      simp only [mlookup, if_neg hq']
      exact ih
    · rw [List.filter_cons_of_pos (by simp [hq])]
      by_cases hq' : q.1 = k'
      · simp only [mlookup, if_pos hq']
      · simp only [mlookup, if_neg hq']
        exact ih

theorem mlookup_filter_none {m : List (Nat × Nat)} (p : Nat × Nat → Bool)
    {k : Nat} (h : mlookup m k = none) : mlookup (m.filter p) k = none := by
  rw [mlookup_eq_none_iff] at h ⊢
  exact fun q hq => h q (List.mem_of_mem_filter hq)

theorem mlookup_filter_pos {m : List (Nat × Nat)} {p : Nat × Nat → Bool}
    {k v : Nat} (h : mlookup m k = some v) (hp : p (k, v) = true) :
    mlookup (m.filter p) k = some v := by
  induction m with
  | nil => simp [mlookup] at h
  | cons q t ih =>
    by_cases hq : q.1 = k
    · have hqv : q = (k, v) := by
        simp only [mlookup, if_pos hq, Option.some.injEq] at h
        obtain ⟨q1, q2⟩ := q
        simp only at hq h
        simp [hq, h]
      rw [hqv, List.filter_cons_of_pos hp]
      simp [mlookup]
    · have ht : mlookup t k = some v := by simpa [mlookup, hq] using h
      by_cases hpq : p q = true
      · rw [List.filter_cons_of_pos hpq]
        simpa [mlookup, hq] using ih ht
      · rw [List.filter_cons_of_neg (by simpa using hpq)]
        exact ih ht

theorem mlookup_filter_neg {m : List (Nat × Nat)} {p : Nat × Nat → Bool}
    {k v : Nat} (hnd : (m.map (fun q => q.1)).Nodup)
    (h : mlookup m k = some v) (hp : p (k, v) = false) :
    mlookup (m.filter p) k = none := by
  induction m with
  | nil => simp [mlookup] at h
  | cons q t ih =>
    rw [List.map_cons, List.nodup_cons] at hnd
    by_cases hq : q.1 = k
    · have hqv : q = (k, v) := by
        simp only [mlookup, if_pos hq, Option.some.injEq] at h
        obtain ⟨q1, q2⟩ := q
        simp only at hq h
        simp [hq, h]
      rw [hqv, List.filter_cons_of_neg (by simp [hp])]
      apply mlookup_filter_none
      rw [mlookup_eq_none_iff]
      intro r hr hrk
      exact (hqv ▸ hnd.1) (hrk ▸ List.mem_map.mpr ⟨r, hr, rfl⟩)
    · have ht : mlookup t k = some v := by simpa [mlookup, hq] using h
      by_cases hpq : p q = true
      · rw [List.filter_cons_of_pos hpq]
        simpa [mlookup, hq] using ih hnd.2 ht
      · rw [List.filter_cons_of_neg (by simpa using hpq)]
        exact ih hnd.2 ht

/-! ## Lemmas about the reconciliation loop -/

theorem mapSet_eq_append {m : List (Nat × Nat)} {k : Nat} (v : Nat)
    (h : mlookup m k = none) : mapSet m k v = m ++ [(k, v)] := by
  unfold mapSet
  rw [h]
  rfl

theorem LoopInv.found {item : Nat} {rest : List Nat} {map created : List (Nat × Nat)}
    {next c : Nat} (inv : LoopInv (item :: rest) map created next)
    (_hc : mlookup created item = some c) :
    LoopInv rest map (mapDelete created item) next where
  nodupItems := inv.nodupItems.of_cons
  sub := fun k v hv => by
    by_cases hk : k = item
    · rw [hk, mlookup_mapDelete_self] at hv
      exact absurd hv (by simp)
    · exact inv.sub k v (by rwa [mlookup_mapDelete_ne _ _ _ hk] at hv)
  freshNone := fun k hk hv => by
    have hki : k ≠ item := fun h =>
      (List.nodup_cons.mp inv.nodupItems).1 (h ▸ hk)
    exact inv.freshNone k (List.mem_cons_of_mem _ hk)
      (by rwa [mlookup_mapDelete_ne _ _ _ hki] at hv)
  keysNodup := inv.keysNodup
  valsNodup := inv.valsNodup
  valsLt := inv.valsLt

theorem LoopInv.fresh {item : Nat} {rest : List Nat} {map created : List (Nat × Nat)}
    {next : Nat} (inv : LoopInv (item :: rest) map created next)
    (hc : mlookup created item = none) :
    LoopInv rest (mapSet map item next) created (next + 1) := by
  have hmap : mlookup map item = none :=
    inv.freshNone item (List.mem_cons_self _ _) hc
  have happ := mapSet_eq_append next hmap
  refine ⟨inv.nodupItems.of_cons, ?_, ?_, ?_, ?_, ?_⟩
  · intro k v hv
    have hki : k ≠ item := fun h => by
      rw [h, hc] at hv
      exact absurd hv (by simp)
    rw [mlookup_mapSet_ne _ _ _ _ hki]
    exact inv.sub k v hv
  · intro k hk hv
    have hki : k ≠ item := fun h =>
      (List.nodup_cons.mp inv.nodupItems).1 (h ▸ hk)
    rw [mlookup_mapSet_ne _ _ _ _ hki]
    exact inv.freshNone k (List.mem_cons_of_mem _ hk) hv
  · rw [happ, List.map_append, List.nodup_append]
    refine ⟨inv.keysNodup, by simp, ?_⟩
    intro x hx
    simp only [List.map_cons, List.map_nil, List.mem_singleton]
    intro hxi
    obtain ⟨p, hp, hpk⟩ := List.mem_map.mp hx
    exact (mlookup_eq_none_iff map item).mp hmap p hp (hxi ▸ hpk)
  · rw [happ, List.map_append, List.nodup_append]
    refine ⟨inv.valsNodup, by simp, ?_⟩
    intro x hx
    simp only [List.map_cons, List.map_nil, List.mem_singleton]
    intro hxn
    obtain ⟨p, hp, hpv⟩ := List.mem_map.mp hx
    exact absurd (hxn ▸ hpv) (Nat.ne_of_lt (inv.valsLt p hp))
  · intro p hp
    rw [happ] at hp
    rcases List.mem_append.mp hp with hp | hp
    · exact Nat.lt_succ_of_lt (inv.valsLt p hp)
    · rw [List.mem_singleton.mp hp]
      exact Nat.lt_succ_self next

theorem reconcileLoop_map_ne (items : List Nat) (map created : List (Nat × Nat))
    (comps : List Nat) (next : Nat) {k : Nat} (hk : k ∉ items) :
    mlookup (reconcileLoop items map created comps next).map k = mlookup map k := by
  induction items generalizing map created comps next with
  | nil => rfl
  | cons item rest ih =>
    have hki : k ≠ item := fun h => hk (h ▸ List.mem_cons_self _ _)
    have hkr : k ∉ rest := fun h => hk (List.mem_cons_of_mem _ h)
    cases hc : mlookup created item with
    | none =>
      simp only [reconcileLoop, hc]
      rw [ih _ _ _ _ hkr, mlookup_mapSet_ne _ _ _ _ hki]
    | some c =>
      simp only [reconcileLoop, hc]
      exact ih _ _ _ _ hkr

theorem reconcileLoop_created_mono (items : List Nat) (map created : List (Nat × Nat))
    (comps : List Nat) (next : Nat) {k : Nat} (h : mlookup created k = none) :
    mlookup (reconcileLoop items map created comps next).created k = none := by
  induction items generalizing map created comps next with
  | nil => exact h
  | cons item rest ih =>
    cases hc : mlookup created item with
    | none =>
      simp only [reconcileLoop, hc]
      exact ih _ _ _ _ h
    | some c =>
      simp only [reconcileLoop, hc]
      refine ih _ _ _ _ ?_
      by_cases hki : k = item
      · rw [hki]
        exact mlookup_mapDelete_self _ _
      · rw [mlookup_mapDelete_ne _ _ _ hki]
        exact h

theorem reconcileLoop_created_spec (items : List Nat) (map created : List (Nat × Nat))
    (comps : List Nat) (next : Nat) (hnd : items.Nodup) (k : Nat) :
    mlookup (reconcileLoop items map created comps next).created k =
      if k ∈ items then none else mlookup created k := by
  induction items generalizing map created comps next with
  | nil => simp [reconcileLoop]
  | cons item rest ih =>
    rw [List.nodup_cons] at hnd
    by_cases hki : k = item
    · subst hki
      rw [if_pos (List.mem_cons_self _ _)]
      cases hc : mlookup created k with
      | none =>
        simp only [reconcileLoop, hc]
        exact reconcileLoop_created_mono _ _ _ _ _ hc
      | some c =>
        simp only [reconcileLoop, hc]
        exact reconcileLoop_created_mono _ _ _ _ _ (mlookup_mapDelete_self _ _)
    · simp only [List.mem_cons, hki, false_or]
      cases hc : mlookup created item with
      | none =>
        simp only [reconcileLoop, hc]
        exact ih _ _ _ _ hnd.2
      | some c =>
        simp only [reconcileLoop, hc]
        rw [ih _ _ _ _ hnd.2]
        rw [mlookup_mapDelete_ne _ _ _ hki]

theorem reconcileLoop_created_sublist (items : List Nat) (map created : List (Nat × Nat))
    (comps : List Nat) (next : Nat) :
    (reconcileLoop items map created comps next).created.Sublist created := by
  induction items generalizing map created comps next with
  | nil => exact List.Sublist.refl _
  | cons item rest ih =>
    cases hc : mlookup created item with
    | none =>
      simp only [reconcileLoop, hc]
      exact ih _ _ _ _
    | some c =>
      simp only [reconcileLoop, hc]
      exact (ih _ _ _ _).trans (List.filter_sublist _)

theorem reconcileLoop_next_le (items : List Nat) (map created : List (Nat × Nat))
    (comps : List Nat) (next : Nat) :
    next ≤ (reconcileLoop items map created comps next).next := by
  induction items generalizing map created comps next with
  | nil => exact Nat.le_refl _
  | cons item rest ih =>
    cases hc : mlookup created item with
    | none =>
      simp only [reconcileLoop, hc]
      exact (Nat.le_succ _).trans (ih _ _ _ _)
    | some c =>
      simp only [reconcileLoop, hc]
      exact ih _ _ _ _

theorem reconcileLoop_inv_final (items : List Nat) (map created : List (Nat × Nat))
    (comps : List Nat) (next : Nat) (inv : LoopInv items map created next) :
    ((reconcileLoop items map created comps next).map.map (fun p => p.1)).Nodup ∧
    ((reconcileLoop items map created comps next).map.map (fun p => p.2)).Nodup ∧
    ∀ p ∈ (reconcileLoop items map created comps next).map,
      p.2 < (reconcileLoop items map created comps next).next := by
  induction items generalizing map created comps next with
  | nil => exact ⟨inv.keysNodup, inv.valsNodup, inv.valsLt⟩
  | cons item rest ih =>
    cases hc : mlookup created item with
    | none =>
      simp only [reconcileLoop, hc]
      exact ih _ _ _ _ (inv.fresh hc)
    | some c =>
      simp only [reconcileLoop, hc]
      exact ih _ _ _ _ (inv.found hc)

theorem reconcileLoop_mem_lookup (items : List Nat) (map created : List (Nat × Nat))
    (comps : List Nat) (next : Nat) (inv : LoopInv items map created next)
    {k : Nat} (hk : k ∈ items) :
    ∃ c, mlookup (reconcileLoop items map created comps next).map k = some c ∧
      (mlookup created k = some c ∨ (next ≤ c ∧ mlookup created k = none)) := by
  induction items generalizing map created comps next with
  | nil => simp at hk
  | cons item rest ih =>
    have hitem : item ∉ rest := (List.nodup_cons.mp inv.nodupItems).1
    by_cases hki : k = item
    · subst hki
      cases hc : mlookup created k with
      | none =>
        refine ⟨next, ?_, Or.inr ⟨Nat.le_refl _, rfl⟩⟩
        simp only [reconcileLoop, hc]
        rw [reconcileLoop_map_ne _ _ _ _ _ hitem]
        exact mlookup_mapSet_self _ _ _
      | some c =>
        refine ⟨c, ?_, Or.inl rfl⟩
        simp only [reconcileLoop, hc]
        rw [reconcileLoop_map_ne _ _ _ _ _ hitem]
        exact inv.sub k c hc
    · have hkr : k ∈ rest := (List.mem_cons.mp hk).resolve_left hki
      cases hc : mlookup created item with
      | none =>
        obtain ⟨c, hc1, hc2⟩ := ih _ _ (comps ++ [next]) _ (inv.fresh hc) hkr
        refine ⟨c, by simpa only [reconcileLoop, hc] using hc1, ?_⟩
        rcases hc2 with hc2 | hc2
        · exact Or.inl hc2
        · exact Or.inr ⟨(Nat.le_succ _).trans hc2.1, hc2.2⟩
      | some c₀ =>
        obtain ⟨c, hc1, hc2⟩ := ih _ _ (comps ++ [c₀]) _ (inv.found hc) hkr
        refine ⟨c, by simpa only [reconcileLoop, hc] using hc1, ?_⟩
        rw [mlookup_mapDelete_ne _ _ _ hki] at hc2
        exact hc2

theorem reconcileLoop_comps_eq (items : List Nat) (map created : List (Nat × Nat))
    (comps : List Nat) (next : Nat) (inv : LoopInv items map created next) :
    (reconcileLoop items map created comps next).comps =
      comps ++ items.map (fun it =>
        (mlookup (reconcileLoop items map created comps next).map it).getD 0) := by
  induction items generalizing map created comps next with
  | nil => simp [reconcileLoop]
  | cons item rest ih =>
    have hitem : item ∉ rest := (List.nodup_cons.mp inv.nodupItems).1
    cases hc : mlookup created item with
    | none =>
      have hit : mlookup (reconcileLoop (item :: rest) map created comps next).map item
          = some next := by
        simp only [reconcileLoop, hc]
        rw [reconcileLoop_map_ne _ _ _ _ _ hitem]
        exact mlookup_mapSet_self _ _ _
      have hrest := ih (mapSet map item next) created (comps ++ [next]) (next + 1)
        (inv.fresh hc)
      simp only [reconcileLoop, hc] at hit ⊢
      rw [hrest, List.map_cons, hit]
      simp
    | some c =>
      have hit : mlookup (reconcileLoop (item :: rest) map created comps next).map item
          = some c := by
        simp only [reconcileLoop, hc]
        rw [reconcileLoop_map_ne _ _ _ _ _ hitem]
        exact inv.sub item c hc
      have hrest := ih map (mapDelete created item) (comps ++ [c]) next
        (inv.found hc)
      simp only [reconcileLoop, hc] at hit ⊢
      rw [hrest, List.map_cons, hit]
      simp

/-! ## The map after the removal phase (lines 102–104) -/

theorem removeCreated_eq_filter (created : List (Nat × Nat)) :
    ∀ m, removeCreated m created =
      m.filter (fun q => decide (q.2 ∉ created.map (fun p => p.2))) := by
  induction created with
  | nil =>
    intro m
    simp [removeCreated]
  | cons p t ih =>
    intro m
    show removeCreated (m.filter fun q => q.2 ≠ p.2) t = _
    rw [ih, List.filter_filter]
    apply List.filter_congr
    intro q _
    by_cases h1 : q.2 = p.2 <;>
      by_cases h2 : q.2 ∈ t.map (fun r => r.2) <;>
      simp [h1, h2]

theorem final_lookup_mem (items : List Nat) (map₀ : List (Nat × Nat)) (next₀ : Nat)
    (hnd : items.Nodup)
    (hkeys : (map₀.map (fun p => p.1)).Nodup)
    (hvals : (map₀.map (fun p => p.2)).Nodup)
    (hlt : ∀ p ∈ map₀, p.2 < next₀) {k : Nat} (hk : k ∈ items) :
    ∃ c, mlookup (reconcileLoop items map₀ map₀ [] next₀).map k = some c ∧
      mlookup (removeCreated (reconcileLoop items map₀ map₀ [] next₀).map
        (reconcileLoop items map₀ map₀ [] next₀).created) k = some c ∧
      (mlookup map₀ k = some c ∨ (next₀ ≤ c ∧ mlookup map₀ k = none)) := by
  have inv : LoopInv items map₀ map₀ next₀ :=
    ⟨hnd, fun _ _ h => h, fun _ _ h => h, hkeys, hvals, hlt⟩
  obtain ⟨c, hc1, hc2⟩ := reconcileLoop_mem_lookup items map₀ map₀ [] next₀ inv hk
  refine ⟨c, hc1, ?_, hc2⟩
  rw [removeCreated_eq_filter]
  apply mlookup_filter_pos hc1
  simp only [decide_eq_true_eq]
  intro hmem
  obtain ⟨q, hq, hqv⟩ := List.mem_map.mp hmem
  have hqm : q ∈ map₀ :=
    (reconcileLoop_created_sublist items map₀ map₀ [] next₀).subset hq
  by_cases hqk : q.1 = k
  · have : mlookup (reconcileLoop items map₀ map₀ [] next₀).created k = none := by
      rw [reconcileLoop_created_spec items map₀ map₀ [] next₀ hnd k, if_pos hk]
    have hsome := mlookup_isSome_of_mem (m := (reconcileLoop items map₀ map₀ [] next₀).created)
      (k := k) (v := q.2) (by rwa [show (k, q.2) = q from by rw [← hqk]] )
    rw [this] at hsome
    simp at hsome
  · rcases hc2 with hc2 | hc2
    · have hkm : (k, c) ∈ map₀ := mem_of_mlookup hc2
      have : q = (k, c) := eq_of_valsNodup hvals hqm hkm (by rw [hqv])
      exact hqk (by rw [this])
    · exact absurd (hqv ▸ hlt q hqm) (Nat.not_lt.mpr hc2.1)

theorem final_lookup_not_mem (items : List Nat) (map₀ : List (Nat × Nat)) (next₀ : Nat)
    (hnd : items.Nodup)
    (hkeys : (map₀.map (fun p => p.1)).Nodup)
    (hvals : (map₀.map (fun p => p.2)).Nodup)
    (hlt : ∀ p ∈ map₀, p.2 < next₀) {k : Nat} (hk : k ∉ items) :
    mlookup (removeCreated (reconcileLoop items map₀ map₀ [] next₀).map
      (reconcileLoop items map₀ map₀ [] next₀).created) k = none := by
  have inv : LoopInv items map₀ map₀ next₀ :=
    ⟨hnd, fun _ _ h => h, fun _ _ h => h, hkeys, hvals, hlt⟩
  have hmap : mlookup (reconcileLoop items map₀ map₀ [] next₀).map k = mlookup map₀ k :=
    reconcileLoop_map_ne items map₀ map₀ [] next₀ hk
  rw [removeCreated_eq_filter]
  cases hl : mlookup map₀ k with
  | none =>
    exact mlookup_filter_none _ (hmap.trans hl)
  | some v =>
    have hcr : mlookup (reconcileLoop items map₀ map₀ [] next₀).created k = some v := by
      rw [reconcileLoop_created_spec items map₀ map₀ [] next₀ hnd k, if_neg hk]
      exact hl
    apply mlookup_filter_neg (reconcileLoop_inv_final items map₀ map₀ [] next₀ inv).1
      (hmap.trans hl)
    simp only [decide_eq_false_iff_not, not_not]
    exact List.mem_map.mpr ⟨(k, v), mem_of_mlookup hcr, rfl⟩

/-! ## The code's windowing agrees with the spec's windowing rule -/

theorem dropWhile_ne_get (l : List Nat) (hnd : l.Nodup) (i : Nat) (h : i < l.length) :
    l.dropWhile (fun x => x ≠ l.get ⟨i, h⟩) = l.drop i := by
  induction l generalizing i with
  | nil => simp at h
  | cons a t ih =>
    rw [List.nodup_cons] at hnd
    cases i with
    | zero =>
      rw [List.dropWhile_cons, if_neg (by simp)]
      rfl
    | succ j =>
      have hj : j < t.length := by simpa using h
      have hne : a ≠ t.get ⟨j, hj⟩ := fun he => hnd.1 (he ▸ List.get_mem t j hj)
      rw [show (a :: t).get ⟨j + 1, h⟩ = t.get ⟨j, hj⟩ from rfl,
        List.dropWhile_cons, if_pos (by simpa using hne)]
      exact ih hnd.2 j hj

theorem computeItems_eq_specWindow (l : List Nat) (fi : Int) (mi : Option Int)
    (hnd : l.Nodup) (hfi : 0 ≤ fi) (hmi : ∀ m, mi = some m → 0 ≤ m) :
    computeItems fi mi l = .ok (specWindow l fi mi) := by
  have hget : ∀ (hin : l.length > 0 ∧ fi < (l.length : Int)),
      listGet l fi = .ok (l.get ⟨fi.toNat, by omega⟩) := by
    intro hin
    unfold listGet
    rw [dif_pos ⟨hfi, by omega⟩]
  have hspec_all : specWindow l fi none = l.drop fi.toNat := by
    unfold specWindow
    exact List.take_of_length_le (by simp [List.length_drop])
  cases mi with
  | none =>
    unfold computeItems
    simp only [ge_iff_le, if_pos hfi]
    by_cases hfi0 : fi > 0
    · rw [if_pos (Or.inl hfi0)]
      by_cases hin : l.length > 0 ∧ fi < (l.length : Int)
      · rw [if_pos hin]
        simp only [hget hin]
        unfold listTake
        rw [dropWhile_ne_get l hnd fi.toNat (by omega), hspec_all]
        rw [List.take_of_length_le (by simp [List.length_drop, Int.toNat_natCast])]
      · rw [if_neg hin, hspec_all,
          List.drop_eq_nil_of_le (by omega)]
    · have hfz : fi = 0 := le_antisymm (by omega) hfi
      rw [if_neg (by simp [hfi0]), hspec_all, hfz]
      simp
  | some m =>
    have hm : 0 ≤ m := hmi m rfl
    unfold computeItems
    simp only [ge_iff_le, if_pos hfi]
    rw [if_pos (Or.inr (by simp [hm]))]
    by_cases hin : l.length > 0 ∧ fi < (l.length : Int)
    · rw [if_pos hin]
      simp only [hget hin]
      unfold listTake specWindow
      rw [if_pos hm, dropWhile_ne_get l hnd fi.toNat (by omega)]
    · rw [if_neg hin]
      unfold specWindow
      rw [List.drop_eq_nil_of_le (by omega)]
      simp

theorem computeItems_sublist {l : List Nat} {fi : Int} {mi : Option Int}
    {w : List Nat} (h : computeItems fi mi l = .ok w) : w.Sublist l := by
  have htake : ∀ (n : Int) (s : Nat), (listTake l n s).Sublist l :=
    fun n s => (List.take_sublist _ _).trans (List.dropWhile_sublist _)
  unfold computeItems at h
  split at h
  all_goals try simp only [ge_iff_le] at h
  all_goals try split_ifs at h
  all_goals try split at h
  all_goals try simp only [Except.ok.injEq] at h
  all_goals first
    | (subst h
       first
         | exact htake _ _
         | exact List.nil_sublist l
         | exact List.Sublist.refl l)
    | simp at h

theorem specWindow_sublist (l : List Nat) (fi : Int) (mi : Option Int) :
    (specWindow l fi mi).Sublist l := by
  unfold specWindow
  exact (List.take_sublist _ _).trans (List.drop_sublist _ _)

theorem forall₂_lookup_of_map {g : Nat → Option Nat} {f : Nat → Nat} (w : List Nat)
    (h : ∀ o ∈ w, g o = some (f o)) :
    List.Forall₂ (fun comp obj => g obj = some comp) (w.map f) w := by
  induction w with
  | nil => simp
  | cons a t ih =>
    exact List.Forall₂.cons (h a (List.mem_cons_self _ _))
      (ih fun o ho => h o (List.mem_cons_of_mem _ ho))

theorem onItemsChangeAsync_run (env : ListEnv) (st : ListState) (l w : List Nat)
    (hc : env.hasContent = true) (ha : env.hasAdapter = true)
    (hl : env.items = some l)
    (hw : computeItems env.firstIndex env.maxItems l = .ok w) :
    onItemsChangeAsync env st = .ok
      { contentMap :=
          removeCreated (reconcileLoop w st.contentMap st.contentMap [] st.nextComp).map
            (reconcileLoop w st.contentMap st.contentMap [] st.nextComp).created
        container := (reconcileLoop w st.contentMap st.contentMap [] st.nextComp).comps
        nextComp := (reconcileLoop w st.contentMap st.contentMap [] st.nextComp).next } := by
  unfold onItemsChangeAsync
  rw [hc, hl, ha]
  simp only [Bool.not_true, Bool.false_eq_true, if_false, hw]

/-! ## The claims about `UIListController` reconciliation -/

/-- C1 (Window correctness): for every backing collection, every
`firstIndex ≥ 0` and every `maxItems ≥ 0` (or unset, meaning unbounded),
reconciliation succeeds and the rendered container's child sequence is
exactly the view components (per the resulting identity→component map) of
`collection[firstIndex .. firstIndex+maxItems)` clipped to collection
bounds, in order; in particular the rendered sequence is empty when
`firstIndex ≥ collection length`. -/
theorem window_correctness (env : ListEnv) (st : ListState) (l : List Nat)
    (hc : env.hasContent = true) (ha : env.hasAdapter = true)
    (hl : env.items = some l) (hnd : l.Nodup) (hwf : WFState st)
    (hfi : 0 ≤ env.firstIndex) (hmi : ∀ m, env.maxItems = some m → 0 ≤ m) :
    ∃ st', onItemsChangeAsync env st = .ok st' ∧
      List.Forall₂ (fun comp obj => mlookup st'.contentMap obj = some comp)
        st'.container (specWindow l env.firstIndex env.maxItems) ∧
      ((l.length : Int) ≤ env.firstIndex → st'.container = []) := by
  have hw := computeItems_eq_specWindow l env.firstIndex env.maxItems hnd hfi hmi
  have hwnd : (specWindow l env.firstIndex env.maxItems).Nodup :=
    List.Nodup.sublist (specWindow_sublist l env.firstIndex env.maxItems) hnd
  have hrun := onItemsChangeAsync_run env st l _ hc ha hl hw
  have inv : LoopInv (specWindow l env.firstIndex env.maxItems)
      st.contentMap st.contentMap st.nextComp :=
    ⟨hwnd, fun _ _ h => h, fun _ _ h => h, hwf.keysNodup, hwf.valsNodup, hwf.valsLt⟩
  have hcomps := reconcileLoop_comps_eq (specWindow l env.firstIndex env.maxItems)
    st.contentMap st.contentMap [] st.nextComp inv
  refine ⟨_, hrun, ?_, ?_⟩
  · show List.Forall₂ _
      (reconcileLoop (specWindow l env.firstIndex env.maxItems)
        st.contentMap st.contentMap [] st.nextComp).comps _
    rw [hcomps, List.nil_append]
    apply forall₂_lookup_of_map
    intro o ho
    obtain ⟨c, hc1, hc2, _⟩ := final_lookup_mem (specWindow l env.firstIndex env.maxItems)
      st.contentMap st.nextComp hwnd hwf.keysNodup hwf.valsNodup hwf.valsLt ho
    rw [hc1]
    simpa using hc2
  · intro hle
    have hwnil : specWindow l env.firstIndex env.maxItems = [] := by
      unfold specWindow
      rw [List.drop_eq_nil_of_le (by omega)]
      simp
    show (reconcileLoop (specWindow l env.firstIndex env.maxItems)
      st.contentMap st.contentMap [] st.nextComp).comps = []
    rw [hcomps, hwnil]
    simp

/-- C1 witness: collection `[5, 6, 7]`, `firstIndex = 1`, `maxItems = 2`. -/
theorem window_correctness_witness :
    ∃ st', onItemsChangeAsync ⟨true, some [5, 6, 7], true, 1, some 2⟩ ⟨[], [], 0⟩ = .ok st' ∧
      List.Forall₂ (fun comp obj => mlookup st'.contentMap obj = some comp)
        st'.container (specWindow [5, 6, 7] 1 (some 2)) ∧
      ((([5, 6, 7] : List Nat).length : Int) ≤ 1 → st'.container = []) :=
  window_correctness ⟨true, some [5, 6, 7], true, 1, some 2⟩ ⟨[], [], 0⟩ [5, 6, 7]
    rfl rfl rfl (by decide) ⟨by simp, by simp, by simp⟩ (by decide)
    (by intro m hm; cases hm; decide)

/-- C2 (Identity stability): a domain object whose view component exists in
the identity→component map before a reconciliation (i.e. it was in the
previous visible window) and that is in the newly computed visible window
keeps the *same* component instance, which is placed in the rendered
container; it is never destroyed and recreated. -/
theorem identity_stability (env : ListEnv) (st : ListState) (l : List Nat)
    (hc : env.hasContent = true) (ha : env.hasAdapter = true)
    (hl : env.items = some l) (hnd : l.Nodup) (hwf : WFState st)
    {o c : Nat} (hbefore : mlookup st.contentMap o = some c)
    {w : List Nat} (hw : computeItems env.firstIndex env.maxItems l = .ok w)
    (ho : o ∈ w) :
    ∃ st', onItemsChangeAsync env st = .ok st' ∧
      mlookup st'.contentMap o = some c ∧ c ∈ st'.container := by
  have hwnd : w.Nodup := List.Nodup.sublist (computeItems_sublist hw) hnd
  have hrun := onItemsChangeAsync_run env st l w hc ha hl hw
  have inv : LoopInv w st.contentMap st.contentMap st.nextComp :=
    ⟨hwnd, fun _ _ h => h, fun _ _ h => h, hwf.keysNodup, hwf.valsNodup, hwf.valsLt⟩
  obtain ⟨c', hc1, hc2, hc3⟩ := final_lookup_mem w st.contentMap st.nextComp
    hwnd hwf.keysNodup hwf.valsNodup hwf.valsLt ho
  have hcc : c' = c := by
    rcases hc3 with hc3 | hc3
    · rw [hbefore] at hc3
      exact (Option.some.injEq _ _ ▸ hc3).symm
    · rw [hbefore] at hc3
      exact absurd hc3.2 (by simp)
  subst hcc
  refine ⟨_, hrun, hc2, ?_⟩
  show c' ∈ (reconcileLoop w st.contentMap st.contentMap [] st.nextComp).comps
  rw [reconcileLoop_comps_eq w st.contentMap st.contentMap [] st.nextComp inv,
    List.nil_append]
  apply List.mem_map.mpr
  exact ⟨o, ho, by rw [hc1]; rfl⟩

/-- C2 witness: object `1` stays visible across a reconciliation that drops
object `2`; its component `10` is reused. -/
theorem identity_stability_witness :
    ∃ st', onItemsChangeAsync ⟨true, some [1, 3], true, 0, none⟩ ⟨[(1, 10), (2, 11)], [10, 11], 12⟩
        = .ok st' ∧
      mlookup st'.contentMap 1 = some 10 ∧ 10 ∈ st'.container :=
  identity_stability ⟨true, some [1, 3], true, 0, none⟩ ⟨[(1, 10), (2, 11)], [10, 11], 12⟩
    [1, 3] rfl rfl rfl (by decide) ⟨by decide, by decide, by decide⟩
    (by decide) (w := [1, 3]) rfl (by decide)

/-- C3 (Map invariant and cleanup): after a reconciliation the identity→
component map's key set is exactly the identities in the computed visible
window (with distinct keys and distinct live components, each below the
allocation counter), and every object that left the window has its component
absent from the map (as a value) and from the rendered container. -/
theorem map_invariant_cleanup (env : ListEnv) (st : ListState) (l : List Nat)
    (hc : env.hasContent = true) (ha : env.hasAdapter = true)
    (hl : env.items = some l) (hnd : l.Nodup) (hwf : WFState st)
    {w : List Nat} (hw : computeItems env.firstIndex env.maxItems l = .ok w) :
    ∃ st', onItemsChangeAsync env st = .ok st' ∧
      (∀ k, (mlookup st'.contentMap k).isSome ↔ k ∈ w) ∧
      WFState st' ∧
      (∀ o c, mlookup st.contentMap o = some c → o ∉ w →
        mlookup st'.contentMap o = none ∧
        (∀ k, mlookup st'.contentMap k ≠ some c) ∧
        c ∉ st'.container) := by
  have hwnd : w.Nodup := List.Nodup.sublist (computeItems_sublist hw) hnd
  have hrun := onItemsChangeAsync_run env st l w hc ha hl hw
  have inv : LoopInv w st.contentMap st.contentMap st.nextComp :=
    ⟨hwnd, fun _ _ h => h, fun _ _ h => h, hwf.keysNodup, hwf.valsNodup, hwf.valsLt⟩
  obtain ⟨hrk, hrv, hrlt⟩ :=
    reconcileLoop_inv_final w st.contentMap st.contentMap [] st.nextComp inv
  have hcomps := reconcileLoop_comps_eq w st.contentMap st.contentMap [] st.nextComp inv
  -- no component of the new window can equal the component of a departed object
  have hfreshne : ∀ o c, mlookup st.contentMap o = some c → o ∉ w →
      ∀ k, k ∈ w → ∀ ck, mlookup (reconcileLoop w st.contentMap st.contentMap []
        st.nextComp).map k = some ck → ck ≠ c := by
    intro o c hoc how k hkw ck hck hckc
    subst hckc
    obtain ⟨c', hc1', _, hc3'⟩ := final_lookup_mem w st.contentMap st.nextComp
      hwnd hwf.keysNodup hwf.valsNodup hwf.valsLt hkw
    have hcc : c' = ck := by rw [hc1'] at hck; exact (Option.some.injEq _ _ ▸ hck)
    subst hcc
    rcases hc3' with hc3' | hc3'
    · have hkm : (k, c') ∈ st.contentMap := mem_of_mlookup hc3'
      have hom : (o, c') ∈ st.contentMap := mem_of_mlookup hoc
      have := eq_of_valsNodup hwf.valsNodup hkm hom rfl
      have hko : k = o := by
        have := congrArg Prod.fst this
        simpa using this
      exact how (hko ▸ hkw)
    · have := hwf.valsLt (o, c') (mem_of_mlookup hoc)
      exact absurd this (by omega)
  refine ⟨_, hrun, ?_, ?_, ?_⟩
  · intro k
    by_cases hk : k ∈ w
    · obtain ⟨c, _, hc2, _⟩ := final_lookup_mem w st.contentMap st.nextComp
        hwnd hwf.keysNodup hwf.valsNodup hwf.valsLt hk
      show (mlookup (removeCreated _ _) k).isSome ↔ _
      rw [hc2]
      simp [hk]
    · have := final_lookup_not_mem w st.contentMap st.nextComp
        hwnd hwf.keysNodup hwf.valsNodup hwf.valsLt hk
      show (mlookup (removeCreated _ _) k).isSome ↔ _
      rw [this]
      simp [hk]
  · constructor
    · show ((removeCreated _ _).map (fun p => p.1)).Nodup
      rw [removeCreated_eq_filter]
      exact List.Nodup.sublist ((List.filter_sublist _).map _) hrk
    · show ((removeCreated _ _).map (fun p => p.2)).Nodup
      rw [removeCreated_eq_filter]
      exact List.Nodup.sublist ((List.filter_sublist _).map _) hrv
    · intro p hp
      show p.2 < (reconcileLoop w st.contentMap st.contentMap [] st.nextComp).next
      apply hrlt
      revert hp
      show p ∈ removeCreated _ _ → _
      rw [removeCreated_eq_filter]
      exact fun hp => (List.filter_sublist _).subset hp
  · intro o c hoc how
    refine ⟨?_, ?_, ?_⟩
    · exact final_lookup_not_mem w st.contentMap st.nextComp
        hwnd hwf.keysNodup hwf.valsNodup hwf.valsLt how
    · intro k hkc
      by_cases hk : k ∈ w
      · obtain ⟨c', hc1', hc2', _⟩ := final_lookup_mem w st.contentMap st.nextComp
          hwnd hwf.keysNodup hwf.valsNodup hwf.valsLt hk
        have : c' = c := by
          rw [hc2'] at hkc
          exact (Option.some.injEq _ _ ▸ hkc)
        exact hfreshne o c hoc how k hk c' hc1' this
      · have := final_lookup_not_mem w st.contentMap st.nextComp
          hwnd hwf.keysNodup hwf.valsNodup hwf.valsLt hk
        rw [this] at hkc
        exact Option.noConfusion hkc
    · intro hcmem
      have : c ∈ (reconcileLoop w st.contentMap st.contentMap [] st.nextComp).comps :=
        hcmem
      rw [hcomps, List.nil_append] at this
      obtain ⟨it, hit, hitc⟩ := List.mem_map.mp this
      obtain ⟨c', hc1', _, _⟩ := final_lookup_mem w st.contentMap st.nextComp
        hwnd hwf.keysNodup hwf.valsNodup hwf.valsLt hit
      have : c' = c := by rw [hc1'] at hitc; simpa using hitc
      exact hfreshne o c hoc how it hit c' hc1' this

/-- C3 witness: object `2` leaves the window; its component `11` disappears
from both the map and the container, and the key set becomes `{1, 3}`. -/
theorem map_invariant_cleanup_witness :
    ∃ st', onItemsChangeAsync ⟨true, some [1, 3], true, 0, none⟩
        ⟨[(1, 10), (2, 11)], [10, 11], 12⟩ = .ok st' ∧
      (∀ k, (mlookup st'.contentMap k).isSome ↔ k ∈ [1, 3]) ∧
      WFState st' ∧
      (∀ o c, mlookup [(1, 10), (2, 11)] o = some c → o ∉ [1, 3] →
        mlookup st'.contentMap o = none ∧
        (∀ k, mlookup st'.contentMap k ≠ some c) ∧
        c ∉ st'.container) :=
  map_invariant_cleanup ⟨true, some [1, 3], true, 0, none⟩
    ⟨[(1, 10), (2, 11)], [10, 11], 12⟩ [1, 3] rfl rfl rfl (by decide)
    ⟨by decide, by decide, by decide⟩ (w := [1, 3]) rfl

/-- C4 (Missing adapter or collection): when reconciliation runs with a
rendered container present but no backing collection or no adapter, the
container is cleared and the pass returns without an error, leaving the rest
of the state untouched. -/
theorem missing_adapter_or_collection_clears (env : ListEnv) (st : ListState)
    (hc : env.hasContent = true)
    (h : env.items = none ∨ env.hasAdapter = false) :
    onItemsChangeAsync env st = .ok { st with container := [] } := by
  unfold onItemsChangeAsync
  rw [hc]
  rcases h with h | h
  · rw [h]
    simp
  · rw [h]
    cases hi : env.items <;> simp

/-- C4 witness: a configured adapter but `items` unset clears the container
without error. -/
theorem missing_adapter_or_collection_clears_witness :
    onItemsChangeAsync ⟨true, none, true, 0, none⟩ ⟨[(1, 10)], [10], 11⟩ =
      .ok ⟨[(1, 10)], [], 11⟩ :=
  missing_adapter_or_collection_clears ⟨true, none, true, 0, none⟩
    ⟨[(1, 10)], [10], 11⟩ rfl (Or.inl rfl)

/-! ## The focus-restore claim -/

/-- C5 (Focus-restore safety): for every `lastFocusedIndex` (negative and
out-of-range included) `restoreFocus` returns without an error; with a
non-empty container it requests focus on the child at
`clamp(lastFocusedIndex, 0, childCount-1)` exactly when that child supports
the focus protocol, and with an empty or missing container it is a no-op. -/
theorem restore_focus_safe (container : Option (Nat × List ChildInfo)) (lfi : Int) :
    (∃ r, restoreFocus container lfi = .ok r) ∧
    (∀ cid children, container = some (cid, children) → children ≠ [] →
      (min ((children.length : Int) - 1) (max lfi 0)).toNat < children.length ∧
      restoreFocus container lfi = .ok
        (if (children.getD (min ((children.length : Int) - 1) (max lfi 0)).toNat
              ⟨0, false⟩).hasRequestFocus then
          some (children.getD (min ((children.length : Int) - 1) (max lfi 0)).toNat
            ⟨0, false⟩).id
        else none)) ∧
    (∀ cid, container = some (cid, []) → restoreFocus container lfi = .ok none) ∧
    (container = none → restoreFocus container lfi = .ok none) := by
  rcases container with _ | ⟨cid, children⟩
  · exact ⟨⟨none, rfl⟩, by simp, by simp, fun _ => rfl⟩
  · rcases hch : children with _ | ⟨c0, t⟩
    · refine ⟨⟨none, by simp [restoreFocus]⟩, ?_, ?_, ?_⟩
      · intro cid' children' heq hne
        rw [Option.some.injEq, Prod.mk.injEq] at heq
        exact absurd heq.2.symm hne
      · intro _ _
        simp [restoreFocus]
      · intro h
        exact Option.noConfusion h
    · have hlen : (c0 :: t).length > 0 := Nat.succ_pos _
      have hidx : 0 ≤ min (((c0 :: t).length : Int) - 1) (max lfi 0) := by
        simp only [List.length_cons]
        omega
      have hlt : (min (((c0 :: t).length : Int) - 1) (max lfi 0)).toNat
          < (c0 :: t).length := by
        simp only [List.length_cons]
        omega
      have hrun : restoreFocus (some (cid, c0 :: t)) lfi = .ok
          (if ((c0 :: t).getD (min (((c0 :: t).length : Int) - 1) (max lfi 0)).toNat
                ⟨0, false⟩).hasRequestFocus then
            some ((c0 :: t).getD (min (((c0 :: t).length : Int) - 1) (max lfi 0)).toNat
              ⟨0, false⟩).id
          else none) := by
        simp only [restoreFocus]
        rw [if_pos hlen, dif_pos ⟨hidx, hlt⟩]
        rw [List.getD_eq_getElem _ _ hlt]
        rfl
      refine ⟨⟨_, hrun⟩, ?_, ?_, ?_⟩
      · intro cid' children' heq hne
        rw [Option.some.injEq, Prod.mk.injEq] at heq
        rw [← heq.2]
        exact ⟨hlt, hrun⟩
      · intro cid' heq
        rw [Option.some.injEq, Prod.mk.injEq] at heq
        exact absurd heq.2.symm (by simp)
      · intro h
        exact Option.noConfusion h

/-- C5 witness: a container with three children and `lastFocusedIndex = -3`
(clamped to `0`); also exercises an out-of-range positive index. -/
theorem restore_focus_safe_witness :
    restoreFocus (some (9, [⟨10, true⟩, ⟨11, false⟩, ⟨12, true⟩])) (-3) = .ok
      (if (([⟨10, true⟩, ⟨11, false⟩, ⟨12, true⟩] : List ChildInfo).getD
            (min ((([⟨10, true⟩, ⟨11, false⟩, ⟨12, true⟩] : List ChildInfo).length : Int) - 1)
              (max (-3) 0)).toNat ⟨0, false⟩).hasRequestFocus then
        some (([⟨10, true⟩, ⟨11, false⟩, ⟨12, true⟩] : List ChildInfo).getD
          (min ((([⟨10, true⟩, ⟨11, false⟩, ⟨12, true⟩] : List ChildInfo).length : Int) - 1)
            (max (-3) 0)).toNat ⟨0, false⟩).id
      else none) :=
  ((restore_focus_safe (some (9, [⟨10, true⟩, ⟨11, false⟩, ⟨12, true⟩])) (-3)).2.1
    9 [⟨10, true⟩, ⟨11, false⟩, ⟨12, true⟩] rfl (by simp)).2

/-! ## The focus-in claim -/

theorem getIndexLoop_none (parentF : Nat → Option Nat) (cid : Nat) (fuel : Nat) :
    getIndexLoop parentF cid fuel none = some none := by
  cases fuel <;> rfl

theorem getIndexLoop_spec (parentF : Nat → Option Nat) (cid : Nat) :
    ∀ (fuel c : Nat) (r : Option Nat),
      getIndexLoop parentF cid fuel (some c) = some r →
      r = firstDirectChild parentF cid (ancestorsAux parentF fuel c) := by
  intro fuel
  induction fuel with
  | zero =>
    intro c r h
    by_cases hp : parentF c = some cid
    · simp only [getIndexLoop, if_pos hp, Option.some.injEq] at h
      simp [firstDirectChild, ancestorsAux, hp, ← h]
    · simp [getIndexLoop, hp] at h
  | succ fuel ih =>
    intro c r h
    by_cases hp : parentF c = some cid
    · simp only [getIndexLoop, if_pos hp, Option.some.injEq] at h
      simp [firstDirectChild, ancestorsAux, hp, ← h]
    · simp only [getIndexLoop, if_neg hp] at h
      cases hpc : parentF c with
      | none =>
        rw [hpc, getIndexLoop_none] at h
        simp only [Option.some.injEq] at h
        simp [firstDirectChild, ancestorsAux, hpc, hp, ← h]
      | some p =>
        rw [hpc] at h
        rw [show ancestorsAux parentF (fuel + 1) c = c :: ancestorsAux parentF fuel p by
          simp [ancestorsAux, hpc]]
        simp only [firstDirectChild, if_neg hp]
        exact ih p r h

/-- C6 (Focus-in handling): for a focus-gained notification whose source is
not the container itself, `lastFocusedIndex` becomes `max 0 i` where `i` is
the index among the container's children of the direct child that contains
or equals the source (`-1`, hence a recorded `0`, when the source is not a
descendant of the container), and no focus restoration runs; when the source
*is* the container, `restoreFocus` is triggered and `lastFocusedIndex` is
unchanged. -/
theorem focus_in_spec (env : TreeEnv) (lfi : Int) (source : Nat) (fuel : Nat)
    (cid : Nat) (children : List ChildInfo)
    (hcont : env.container = some (cid, children)) :
    (source ≠ cid →
      ∀ out, onFocusIn env lfi source fuel = some out →
        out.restored = none ∧
        out.lastFocusedIndex = max 0
          (match firstDirectChild env.parent cid (ancestorsAux env.parent fuel source) with
           | some c => indexOfChild children c
           | none => -1) ∧
        (firstDirectChild env.parent cid (ancestorsAux env.parent fuel source) = none →
          out.lastFocusedIndex = 0)) ∧
    (source = cid →
      onFocusIn env lfi source fuel =
        some ⟨lfi, some (restoreFocus env.container lfi)⟩) := by
  constructor
  · intro hne out hout
    unfold onFocusIn at hout
    rw [hcont] at hout
    rw [if_pos (by simpa using hne)] at hout
    simp only [getIndexOfComponent, hcont] at hout
    cases hloop : getIndexLoop env.parent cid fuel (some source) with
    | none =>
      rw [hloop] at hout
      simp at hout
    | some ores =>
      rw [hloop] at hout
      have hspec := getIndexLoop_spec env.parent cid fuel source ores hloop
      cases ores with
      | none =>
        simp only [Option.map_some'] at hout
        have hout' : ({ lastFocusedIndex := (0 : Int) ⊔ -1, restored := none }
            : FocusOutcome) = out := Option.some.inj hout
        rw [← hout', ← hspec]
        exact ⟨rfl, rfl, fun _ => by decide⟩
      | some c =>
        simp only [Option.map_some'] at hout
        have hout' : (⟨(0 : Int) ⊔ indexOfChild children c, none⟩ : FocusOutcome) = out :=
          Option.some.inj hout
        rw [← hout', ← hspec]
        exact ⟨rfl, rfl, fun hnone => Option.noConfusion hnone⟩
  · intro heq
    unfold onFocusIn
    rw [hcont, if_neg (by simp [heq])]

/-- C6 witness: focus lands on component `5` inside child `1` of the
container `0`; `lastFocusedIndex` becomes `0`, the index of child `1`. -/
theorem focus_in_spec_witness :
    (⟨0, none⟩ : FocusOutcome).restored = none ∧
    (⟨0, none⟩ : FocusOutcome).lastFocusedIndex = max 0
      (match firstDirectChild sampleTreeEnv.parent 0
          (ancestorsAux sampleTreeEnv.parent 10 5) with
       | some c => indexOfChild [⟨1, true⟩, ⟨2, true⟩] c
       | none => -1) ∧
    (firstDirectChild sampleTreeEnv.parent 0
        (ancestorsAux sampleTreeEnv.parent 10 5) = none →
      (⟨0, none⟩ : FocusOutcome).lastFocusedIndex = 0) :=
  (focus_in_spec sampleTreeEnv 99 5 10 0 [⟨1, true⟩, ⟨2, true⟩] rfl).1
    (by decide) ⟨0, none⟩ rfl

/-! ## The arrow-key navigation claim -/

theorem getLast?_cons_eq {α : Type} (a : α) (l : List α) :
    (a :: l).getLast? = match l.getLast? with | some x => some x | none => some a := by
  cases hl : l.getLast? with
  | none =>
    cases l with
    | nil => rfl
    | cons b t =>
      have hs : (b :: t).getLast?.isSome := by
        rw [List.getLast?_isSome]
        simp
      rw [hl] at hs
      simp at hs
  | some x =>
    cases l with
    | nil => simp at hl
    | cons b t =>
      rw [List.getLast?_cons_cons]
      exact hl

theorem listItemLoop_none (parentF : Nat → Option Nat) (isUI : Nat → Bool)
    (contentId : Option Nat) (fuel : Nat) (tgt : Option Nat) :
    listItemLoop parentF isUI contentId fuel none tgt = some tgt := by
  cases fuel <;> rfl

theorem listItemLoop_stop (parentF : Nat → Option Nat) (isUI : Nat → Bool)
    (contentId : Option Nat) (fuel : Nat) (c : Nat) (tgt : Option Nat)
    (h : contentId = some c) :
    listItemLoop parentF isUI contentId fuel (some c) tgt = some tgt := by
  cases fuel <;> simp [listItemLoop, h]

theorem listItemLoop_spec (parentF : Nat → Option Nat) (isUI : Nat → Bool)
    (contentId : Option Nat) :
    ∀ (fuel c : Nat) (tgt r : Option Nat),
      listItemLoop parentF isUI contentId fuel (some c) tgt = some r →
      r = match ((chainBeforeContainer contentId (ancestorsAux parentF fuel c)).filter
            (fun x => isUI x)).getLast? with
          | some t => some t
          | none => tgt := by
  intro fuel
  induction fuel with
  | zero =>
    intro c tgt r h
    by_cases hc : contentId = some c
    · simp only [listItemLoop, if_pos hc, Option.some.injEq] at h
      simp [chainBeforeContainer, ancestorsAux, List.takeWhile_cons, hc, ← h]
    · simp [listItemLoop, hc] at h
  | succ fuel ih =>
    intro c tgt r h
    by_cases hc : contentId = some c
    · simp only [listItemLoop, if_pos hc, Option.some.injEq] at h
      simp [chainBeforeContainer, ancestorsAux, List.takeWhile_cons, hc, ← h]
    · simp only [listItemLoop, if_neg hc] at h
      cases hp : parentF c with
      | none =>
        rw [hp, listItemLoop_none] at h
        have h' : (if isUI c then some c else tgt) = r := Option.some.inj h
        rw [show ancestorsAux parentF (fuel + 1) c = [c] by simp [ancestorsAux, hp]]
        by_cases hui : isUI c <;>
          simp [chainBeforeContainer, List.takeWhile_cons, List.filter_cons, hc,
            hui, ← h']
      | some p =>
        rw [hp] at h
        have hrec := ih p (if isUI c then some c else tgt) r h
        rw [show ancestorsAux parentF (fuel + 1) c = c :: ancestorsAux parentF fuel p by
          simp [ancestorsAux, hp]]
        rw [show chainBeforeContainer contentId (c :: ancestorsAux parentF fuel p) =
            c :: chainBeforeContainer contentId (ancestorsAux parentF fuel p) by
          simp [chainBeforeContainer, List.takeWhile_cons, hc]]
        rw [List.filter_cons]
        by_cases hui : isUI c
        · rw [if_pos (by simpa using hui)]
          rw [getLast?_cons_eq]
          rw [if_pos hui] at hrec
          cases hF : ((chainBeforeContainer contentId
              (ancestorsAux parentF fuel p)).filter (fun x => isUI x)).getLast? with
          | none =>
            rw [hF] at hrec
            simpa using hrec
          | some x =>
            rw [hF] at hrec
            simpa using hrec
        · rw [if_neg (by simpa using hui)]
          rw [if_neg hui] at hrec
          exact hrec

/-- C7 counterexample: component `7` is a `UIComponent` that is not a
descendant of the container `0`, yet the up/down key handlers are not a
no-op on it — the walk returns `7` itself and
`requestFocusPrevious`/`requestFocusNext` is invoked on it. -/
theorem arrow_key_nondescendant_cex :
    isDescendantOf arrowCexEnv.parent 0 (ancestorsAux arrowCexEnv.parent 5 7) = false ∧
    onArrowUpKeyPress arrowCexEnv true 7 5 = some (some 7) ∧
    onArrowDownKeyPress arrowCexEnv true 7 5 = some (some 7) := by
  refine ⟨?_, ?_, ?_⟩ <;> decide

/-- C7 amended: the handlers are a no-op when `enableArrowKeyFocus` is false
or the event source is the container itself; otherwise the walk resolves the
target to the *last `UIComponent` encountered while walking up from the
source until hitting the container or a root* (for a source outside the
container this is its topmost `UIComponent` ancestor, not a no-op), and
`requestFocusPrevious`/`requestFocusNext` is invoked on that target when it
exists. -/
theorem arrow_key_navigation (env : TreeEnv) (source : Nat) (fuel : Nat) :
    (onArrowUpKeyPress env false source fuel = some none ∧
     onArrowDownKeyPress env false source fuel = some none) ∧
    (∀ r, getListItemComponent env source fuel = some r →
      r = specListItemTarget env.isUI (env.container.map (fun p => p.1))
            (ancestorsAux env.parent fuel source) ∧
      onArrowUpKeyPress env true source fuel = some r ∧
      onArrowDownKeyPress env true source fuel = some r) ∧
    (env.container.map (fun p => p.1) = some source →
      getListItemComponent env source fuel = some none) := by
  refine ⟨⟨rfl, rfl⟩, ?_, ?_⟩
  · intro r hr
    have hr' := hr
    unfold getListItemComponent at hr'
    have hspec := listItemLoop_spec env.parent env.isUI
      (env.container.map (fun p => p.1)) fuel source none r hr'
    refine ⟨?_, ?_, ?_⟩
    · rw [hspec]
      unfold specListItemTarget
      cases ((chainBeforeContainer (env.container.map (fun p => p.1))
          (ancestorsAux env.parent fuel source)).filter
            (fun x => env.isUI x)).getLast? <;> rfl
    · unfold onArrowUpKeyPress
      rw [if_pos rfl]
      exact hr
    · unfold onArrowDownKeyPress
      rw [if_pos rfl]
      exact hr
  · intro hsrc
    unfold getListItemComponent
    exact listItemLoop_stop env.parent env.isUI _ fuel source none hsrc

/-- C7 amended witness: source `5` inside child `1` resolves to target `1`
(the topmost `UIComponent` strictly below the container), which receives the
focus-previous/next request. -/
theorem arrow_key_navigation_witness :
    some 1 = specListItemTarget sampleTreeEnv.isUI
        (sampleTreeEnv.container.map (fun p => p.1))
        (ancestorsAux sampleTreeEnv.parent 10 5) ∧
    onArrowUpKeyPress sampleTreeEnv true 5 10 = some (some 1) ∧
    onArrowDownKeyPress sampleTreeEnv true 5 10 = some (some 1) :=
  (arrow_key_navigation sampleTreeEnv 5 10).2.1 (some 1) rfl

/-! ## The `UIMenu` claims -/

/-- C8 (Menu build sequence): with a non-empty options list, one `render()`
call issues `clear`, then `addOption` for each option in list order, then
`setGravity` exactly when gravity is set, then the "Build" notification,
then a single `build()`, after which exactly one instance of the built class
is constructed, stored as the owned `menu` child (replacing any previous
one), and rendered. -/
theorem menu_build_sequence (st : MenuState) (h : st.options ≠ []) :
    (menuRender st).2 =
      MenuAct.clear :: (st.options.map (fun o => MenuAct.addOption o.1 o.2) ++
        (match st.gravity with | some g => [MenuAct.setGravity g] | none => []) ++
        [MenuAct.buildEvent, MenuAct.build, MenuAct.construct st.nextInstance,
         MenuAct.renderInst st.nextInstance]) ∧
    (menuRender st).2.count MenuAct.build = 1 ∧
    (menuRender st).2.count (MenuAct.construct st.nextInstance) = 1 ∧
    (menuRender st).1.menu = some st.nextInstance ∧
    (menuRender st).1.nextInstance = st.nextInstance + 1 := by
  have hlen : st.options.length ≠ 0 := by
    simpa [List.length_eq_zero] using h
  have htrace : (menuRender st).2 =
      MenuAct.clear :: (st.options.map (fun o => MenuAct.addOption o.1 o.2) ++
        (match st.gravity with | some g => [MenuAct.setGravity g] | none => []) ++
        [MenuAct.buildEvent, MenuAct.build, MenuAct.construct st.nextInstance,
         MenuAct.renderInst st.nextInstance]) := by
    unfold menuRender
    rw [if_pos hlen]
    cases st.gravity <;> simp
  refine ⟨htrace, ?_, ?_, ?_, ?_⟩
  · rw [htrace]
    have hmap : (st.options.map (fun o => MenuAct.addOption o.1 o.2)).count
        MenuAct.build = 0 := by
      rw [List.count_eq_zero]
      intro hmem
      obtain ⟨o, _, ho⟩ := List.mem_map.mp hmem
      exact MenuAct.noConfusion ho
    cases st.gravity <;>
      simp [List.count_cons, List.count_append, hmap, List.count_singleton]
  · rw [htrace]
    have hmap : (st.options.map (fun o => MenuAct.addOption o.1 o.2)).count
        (MenuAct.construct st.nextInstance) = 0 := by
      rw [List.count_eq_zero]
      intro hmem
      obtain ⟨o, _, ho⟩ := List.mem_map.mp hmem
      exact MenuAct.noConfusion ho
    cases st.gravity <;>
      simp [List.count_cons, List.count_append, hmap, List.count_singleton]
  · unfold menuRender
    rw [if_pos hlen]
  · unfold menuRender
    rw [if_pos hlen]

/-- C8 witness: a menu with options `[(k1, One), (k2, Two)]` and gravity
`start`. -/
theorem menu_build_sequence_witness :
    (menuRender menuWitnessState).2 =
      MenuAct.clear :: (menuWitnessState.options.map (fun o => MenuAct.addOption o.1 o.2) ++
        (match menuWitnessState.gravity with
         | some g => [MenuAct.setGravity g] | none => []) ++
        [MenuAct.buildEvent, MenuAct.build, MenuAct.construct menuWitnessState.nextInstance,
         MenuAct.renderInst menuWitnessState.nextInstance]) ∧
    (menuRender menuWitnessState).2.count MenuAct.build = 1 ∧
    (menuRender menuWitnessState).2.count
      (MenuAct.construct menuWitnessState.nextInstance) = 1 ∧
    (menuRender menuWitnessState).1.menu = some menuWitnessState.nextInstance ∧
    (menuRender menuWitnessState).1.nextInstance = menuWitnessState.nextInstance + 1 :=
  menu_build_sequence menuWitnessState (by decide)

/-- C9 (Selection propagation): a bubbling menu-item-selected event with key
`k` sets the menu's `selected` field to `k` and is re-emitted upward as the
very same event; afterwards `selected` equals the event's key. -/
theorem menu_selection_propagation (st : MenuState) (name : String) (src : Nat)
    (k : String) :
    menuChildEventHandler st (.menuItemSelected name src k) =
      ({ st with selected := some k }, some (.menuItemSelected name src k)) ∧
    (menuChildEventHandler st (.menuItemSelected name src k)).1.selected = some k :=
  ⟨rfl, rfl⟩

/-- C10 (Empty options at render): `render()` with an empty options list
neither clears nor repopulates the builder — options accumulated in the
builder beforehand persist into the built menu — while `setGravity` (when
set), the "Build" notification, `build()` and the construction/render of one
instance still occur. -/
theorem menu_empty_options_builder_persists (st : MenuState) (h : st.options = []) :
    (menuRender st).2 =
      (match st.gravity with | some g => [MenuAct.setGravity g] | none => []) ++
      [MenuAct.buildEvent, MenuAct.build, MenuAct.construct st.nextInstance,
       MenuAct.renderInst st.nextInstance] ∧
    MenuAct.clear ∉ (menuRender st).2 ∧
    (∀ kk tt, MenuAct.addOption kk tt ∉ (menuRender st).2) ∧
    (menuRender st).1.builder = (match st.gravity with
      | some g => builderSetGravity st.builder g
      | none => st.builder) ∧
    (menuRender st).1.lastBuilt = some (match st.gravity with
      | some g => builderSetGravity st.builder g
      | none => st.builder) ∧
    ((menuRender st).1.lastBuilt.map BuilderState.options) = some st.builder.options := by
  have hlen : ¬ st.options.length ≠ 0 := by
    simp [h]
  unfold menuRender
  rw [if_neg hlen]
  cases st.gravity <;>
    simp [builderSetGravity]

/-- C10 witness: a builder holding option `(a, A)` before a render with an
empty options list keeps it in the built menu. -/
theorem menu_empty_options_builder_persists_witness :
    (menuRender menuEmptyWitnessState).2 =
      (match menuEmptyWitnessState.gravity with
       | some g => [MenuAct.setGravity g] | none => []) ++
      [MenuAct.buildEvent, MenuAct.build,
       MenuAct.construct menuEmptyWitnessState.nextInstance,
       MenuAct.renderInst menuEmptyWitnessState.nextInstance] ∧
    MenuAct.clear ∉ (menuRender menuEmptyWitnessState).2 ∧
    (∀ kk tt, MenuAct.addOption kk tt ∉ (menuRender menuEmptyWitnessState).2) ∧
    (menuRender menuEmptyWitnessState).1.builder =
      (match menuEmptyWitnessState.gravity with
       | some g => builderSetGravity menuEmptyWitnessState.builder g
       | none => menuEmptyWitnessState.builder) ∧
    (menuRender menuEmptyWitnessState).1.lastBuilt =
      some (match menuEmptyWitnessState.gravity with
        | some g => builderSetGravity menuEmptyWitnessState.builder g
        | none => menuEmptyWitnessState.builder) ∧
    ((menuRender menuEmptyWitnessState).1.lastBuilt.map BuilderState.options) =
      some menuEmptyWitnessState.builder.options :=
  menu_empty_options_builder_persists menuEmptyWitnessState rfl

end Typescene
